import Mathlib

/-!
Verification of the allscan target-resolution and coverage/caching engine.

This file gives a shallow embedding, in Lean, of the pure core of the Go
program: ref resolution from a git ls-remote tag listing, repository spec
validation, scanner selection by detected language, the per-language
coverage matrix computation, SBOM cache lookup, and language percentage
derivation.  Each definition is translated directly from the Go source;
IO actions (process execution, filesystem walks, network) are represented
by explicit parameters holding the data those actions would return
(directory listings, command output, the parser registry).  Go maps are
modelled as association lists where a head insertion shadows earlier
entries, matching overwrite-on-write and single-key lookup semantics.
Go strings are modelled as Lean strings and the handful of operations
from the strings package used by the code are re-implemented over the
underlying character lists, matching their documented behaviour.
-/

/-! ## Go string operations, modelled over character lists -/

/-- Models strings.HasPrefix: s begins with p. -/
def goStartsWith (s p : String) : Bool :=
  p.data.isPrefixOf s.data

/-- Models strings.HasSuffix: s ends with p. -/
def goEndsWith (s p : String) : Bool :=
  p.data.isSuffixOf s.data

/-- Models strings.TrimPrefix: drop p from the front of s when present,
otherwise return s unchanged. -/
def goTrimStart (s p : String) : String :=
  if p.data.isPrefixOf s.data then ⟨s.data.drop p.data.length⟩ else s

/-- Models strings.CutSuffix: when s ends with p, return s with p removed,
otherwise nothing. -/
def goCutSuffix (s p : String) : Option String :=
  if p.data.isSuffixOf s.data then some ⟨s.data.take (s.data.length - p.data.length)⟩
  else none

/-- Models the slicing hash[:7] guarded by len(hash) > 7 in resolveFromLsRemote. -/
def goShortHash (s : String) : String :=
  if s.data.length > 7 then ⟨s.data.take 7⟩ else s

/-- Splits a character list around runs of whitespace, as strings.Fields does. -/
def goFieldsChars : List Char → List (List Char)
  | [] => []
  | c :: cs =>
    if c.isWhitespace then goFieldsChars cs
    else
      match goFieldsChars cs with
      | [] => [[c]]
      | f :: fs =>
        match cs with
        | [] => [[c]]
        | c2 :: _ => if c2.isWhitespace then [c] :: f :: fs else (c :: f) :: fs

/-- Models strings.Fields: the whitespace-separated fields of s. -/
def goFields (s : String) : List String :=
  (goFieldsChars s.data).map (⟨·⟩)

/-- Models strings.TrimSpace: remove leading and trailing whitespace. -/
def goTrimSpace (s : String) : String :=
  ⟨((s.data.dropWhile Char.isWhitespace).reverse.dropWhile Char.isWhitespace).reverse⟩

/-- Models strings.Split(s, newline): the newline-separated pieces of s. -/
def goSplitLines (s : String) : List String :=
  (s.data.splitOn '\n').map (⟨·⟩)

/-- Models strings.EqualFold restricted to simple case folding: the two
strings agree after lowercasing each character. -/
def equalFold (a b : String) : Bool :=
  a.data.map Char.toLower == b.data.map Char.toLower

/-- Models filepath.Join on two already-clean path components. -/
def joinPath (a b : String) : String :=
  a ++ "/" ++ b

/-! ## Data model (config.go of the main package) -/

/-- Global settings of the orchestrator, from GlobalConfig. -/
structure GlobalConfig where
  Workspace : String := ""
  ResultsDir : String := ""
  UploadEndpoint : String := ""
  MaxConcurrent : Int := 0
  FailFast : Bool := false
deriving Repr, DecidableEq

/-- A scanner catalog entry, from ScannerConfig.  The timeout string and the
parsed duration are carried verbatim; command and args are inert data here
since execution is external. -/
structure ScannerConfig where
  Name : String := ""
  Enabled : Bool := false
  Command : String := ""
  Args : List String := []
  ArgsLocal : List String := []
  FilePatterns : List String := []
  Languages : List String := []
  LanguagesConditional : List String := []
  Timeout : String := ""
  DojoScanType : String := ""
  RequiredEnv : List String := []
deriving Repr, DecidableEq

/-- A target repository entry, from RepositoryConfig. -/
structure RepositoryConfig where
  URL : String := ""
  Branch : String := ""
  Version : String := ""
  Commit : String := ""
  Scanners : List String := []
deriving Repr, DecidableEq

/-- The outcome of one scanner run, from ScanResult.  The error value is
reduced to presence of success; duration and paths are carried as data. -/
structure ScanResult where
  Scanner : String := ""
  Repository : String := ""
  OutputPath : String := ""
  Success : Bool := false
  DojoScanType : String := ""
  CommitHash : String := ""
  BranchTag : String := ""
deriving Repr, DecidableEq

/-- The detected language set of one repository, from DetectedLanguages.
FileCounts is the Go map modelled as an association list with unique keys
at construction time; values are byte counts for the remote-metadata path
and file counts for the filesystem path. -/
structure DetectedLanguages where
  Languages : List String := []
  FileCounts : List (String × Int) := []
  Source : String := ""
deriving Repr, DecidableEq

/-- Everything the summary needs about one repository scan, from
RepoScanContext.  A nil Languages pointer is modelled as none. -/
structure RepoScanContext where
  RepoURL : String := ""
  Results : List ScanResult := []
  Languages : Option DetectedLanguages := none
  Scanners : List ScannerConfig := []
  SBOMPath : String := ""
deriving Repr, DecidableEq

/-- The complete configuration, from Config. -/
structure Config where
  Global : GlobalConfig := {}
  Scanners : List ScannerConfig := []
  Repositories : List RepositoryConfig := []
deriving Repr, DecidableEq

/-! ## CoverageEngine (summary.go) -/

/-- Coverage status of one (language, scanType) cell, from CoverageState.
The Go source encodes the four states as iota constants 0..3. -/
inductive CoverageState where
  | covNone
  | covConditional
  | covFailed
  | covOK
deriving Repr, DecidableEq

/-- Numeric value of a coverage state, matching the iota encoding that the
Go comparison current < CoverageFailed operates on. -/
def CoverageState.toNat : CoverageState → Nat
  | .covNone => 0
  | .covConditional => 1
  | .covFailed => 2
  | .covOK => 3

/-- One recorded outcome applied to a coverage cell inside the scanner loop
of computeCoverage: a covering scanner either succeeded or failed, and a
conditional-only language match records conditional coverage. -/
inductive ScanOutcome where
  | success
  | failure
  | conditional
deriving Repr, DecidableEq

/-- The cell transition of computeCoverage, line by line: success writes
CoverageOK unconditionally; failure writes CoverageFailed only when the
current state is numerically below CoverageFailed; a conditional match
writes CoverageConditional only from CoverageNone.  Branches in which the
Go code does not assign leave the cell unchanged. -/
def recordOutcome (cur : CoverageState) : ScanOutcome → CoverageState
  | .success => .covOK
  | .failure => if cur.toNat < CoverageState.covFailed.toNat then .covFailed else cur
  | .conditional => if cur = .covNone then .covConditional else cur

/-- The scan types tracked by the coverage matrix, from the scanTypes
slice in computeCoverage. -/
def trackedScanTypes : List String := ["SCA", "SAST"]

/-- A coverage matrix: language to scanType to state, the Go nested map
modelled as nested association lists built by initCoverage. -/
abbrev CoverageMatrix := List (String × List (String × CoverageState))

/-- Reads one cell of the matrix, defaulting to CoverageNone. -/
def getCell (cov : CoverageMatrix) (lang st : String) : CoverageState :=
  (((cov.lookup lang).getD []).lookup st).getD .covNone

/-- Writes one cell of the matrix. -/
def setCell (cov : CoverageMatrix) (lang st : String) (v : CoverageState) :
    CoverageMatrix :=
  cov.map fun p =>
    if p.1 = lang then (p.1, p.2.map fun q => if q.1 = st then (q.1, v) else q)
    else p

/-- Models the scannerSuccess lookup loop in computeCoverage: the success
flag of the first result recorded for the named scanner, false when none. -/
def scannerSuccessIn (results : List ScanResult) (name : String) : Bool :=
  match results.find? (fun r => r.Scanner == name) with
  | some r => r.Success
  | none => false

/-- Whether the scanner covers the language: an empty Languages list is
universal, otherwise any case-insensitive match in Languages, from the
covers computation in computeCoverage. -/
def scannerCovers (scanner : ScannerConfig) (lang : String) : Bool :=
  scanner.Languages.length == 0 || scanner.Languages.any (fun sl => equalFold sl lang)

/-- Whether the scanner lists the language among its conditional languages,
from the LanguagesConditional loop in computeCoverage. -/
def scannerCondMatches (scanner : ScannerConfig) (lang : String) : Bool :=
  scanner.LanguagesConditional.any (fun sl => equalFold sl lang)

/-- The per-language body of the scanner loop in computeCoverage: covering
scanners record success or failure on the cell, and otherwise a conditional
language match records conditional coverage. -/
def applyScannerLang (scanner : ScannerConfig) (success : Bool) (scanType : String)
    (cov : CoverageMatrix) (lang : String) : CoverageMatrix :=
  if scannerCovers scanner lang then
    setCell cov lang scanType
      (recordOutcome (getCell cov lang scanType)
        (if success then .success else .failure))
  else if scannerCondMatches scanner lang then
    setCell cov lang scanType (recordOutcome (getCell cov lang scanType) .conditional)
  else cov

/-- The per-scanner body of computeCoverage.  The parsersGet parameter
models the parsers.Get registry lookup from scanner name to parser scan
type; scanners without a parser, repo-level scan types, and untracked
types are skipped. -/
def applyScanner (parsersGet : String → Option String) (results : List ScanResult)
    (languages : List String) (cov : CoverageMatrix) (scanner : ScannerConfig) :
    CoverageMatrix :=
  match parsersGet scanner.Name with
  | none => cov
  | some scanType =>
    if scanType == "Scorecard" || scanType == "Binary" || scanType == "Secrets" then cov
    else if !(trackedScanTypes.contains scanType) then cov
    else
      let success := scannerSuccessIn results scanner.Name
      languages.foldl (applyScannerLang scanner success scanType) cov

/-- The initial matrix of computeCoverage: every tracked cell of every
detected language starts at CoverageNone. -/
def initCoverage (languages : List String) : CoverageMatrix :=
  languages.map fun l => (l, trackedScanTypes.map fun st => (st, CoverageState.covNone))

/-- Models computeCoverage from summary.go: nothing when no languages were
detected (nil pointer or empty list), otherwise the matrix obtained by
folding every selected scanner over the initial matrix. -/
def computeCoverage (parsersGet : String → Option String) (ctx : RepoScanContext) :
    Option CoverageMatrix :=
  match ctx.Languages with
  | none => none
  | some d =>
    if d.Languages.length == 0 then none
    else some (ctx.Scanners.foldl
      (applyScanner parsersGet ctx.Results d.Languages) (initCoverage d.Languages))

/-- Helper: once a cell has reached CoverageOK, no later outcome changes it. -/
theorem foldl_recordOutcome_covOK (os : List ScanOutcome) :
    os.foldl recordOutcome .covOK = .covOK := by
  induction os with
  | nil => rfl
  | cons o os ih =>
    have h : recordOutcome .covOK o = .covOK := by cases o <;> rfl
    simp [List.foldl_cons, h, ih]

/-- C1.  Coverage cell transitions are monotone in the order
CoverageNone < CoverageConditional < CoverageFailed < CoverageOK, and success
forces CoverageOK: a successful matrix-tracked scanner sets the cell to
CoverageOK regardless of prior state; a failure sets CoverageFailed exactly
when the current state is strictly below CoverageFailed, leaving a prior
CoverageOK or CoverageFailed unchanged; a conditional-only match upgrades
CoverageNone to CoverageConditional and never overrides any other state;
every transition is non-decreasing; and any outcome sequence containing a
success ends at CoverageOK. -/
theorem coverage_cell_monotone :
    (∀ cur : CoverageState, recordOutcome cur .success = .covOK) ∧
    (recordOutcome .covOK .failure = .covOK ∧
     recordOutcome .covFailed .failure = .covFailed ∧
     recordOutcome .covNone .failure = .covFailed ∧
     recordOutcome .covConditional .failure = .covFailed) ∧
    (recordOutcome .covNone .conditional = .covConditional ∧
     recordOutcome .covConditional .conditional = .covConditional ∧
     recordOutcome .covFailed .conditional = .covFailed ∧
     recordOutcome .covOK .conditional = .covOK) ∧
    (∀ (cur : CoverageState) (o : ScanOutcome),
      cur.toNat ≤ (recordOutcome cur o).toNat) ∧
    (∀ (os₁ os₂ : List ScanOutcome) (cur : CoverageState),
      (os₁ ++ ScanOutcome.success :: os₂).foldl recordOutcome cur = .covOK) := by
  refine ⟨fun cur => by cases cur <;> rfl, ⟨rfl, rfl, rfl, rfl⟩, ⟨rfl, rfl, rfl, rfl⟩,
    fun cur o => by cases cur <;> cases o <;> decide, fun os₁ os₂ cur => ?_⟩
  rw [List.foldl_append, List.foldl_cons]
  have h : recordOutcome (os₁.foldl recordOutcome cur) .success = .covOK := rfl
  rw [h, foldl_recordOutcome_covOK]

/-- C10.  The coverage computation yields no matrix exactly when the context
has a nil detected-language pointer or an empty detected language list; a
matrix exists only when at least one language was detected. -/
theorem compute_coverage_requires_languages (pg : String → Option String)
    (ctx : RepoScanContext) :
    computeCoverage pg ctx = none ↔
      ctx.Languages = none ∨ ∃ d, ctx.Languages = some d ∧ d.Languages = [] := by
  unfold computeCoverage
  cases hL : ctx.Languages with
  | none => simp
  | some d =>
    by_cases hlen : d.Languages = []
    · simp [hlen]
    · have hb : (d.Languages.length == 0) = false := by
        simp [List.length_eq_zero, hlen]
      simp [hb, hlen]

/-! ## ScannerSelector (scanner.go and the language detector methods) -/

/-- Models the hasLanguage method of DetectedLanguages: the language appears
case-insensitively in the detected list. -/
def hasLanguage (d : DetectedLanguages) (lang : String) : Bool :=
  d.Languages.any (fun l => equalFold l lang)

/-- Models the hasAnyLanguage method of DetectedLanguages: some listed
language was detected. -/
def hasAnyLanguage (d : DetectedLanguages) (languages : List String) : Bool :=
  languages.any (fun lang => hasLanguage d lang)

/-- Models isScannerCompatible from scanner.go: a scanner with an empty
Languages list is universal; otherwise it requires a non-empty detected set
and a case-insensitive match against its Languages list.  The
LanguagesConditional list is not consulted by this function. -/
def isScannerCompatible (scanner : ScannerConfig) (detected : DetectedLanguages) :
    Bool :=
  if scanner.Languages.length == 0 then true
  else if detected.Languages.length == 0 then false
  else hasAnyLanguage detected scanner.Languages

/-- Models getScannersForRepo from scanner.go.  When the repository names an
explicit scanner list, each name selects the first enabled catalog entry with
that name, kept only when compatible; otherwise every enabled compatible
catalog entry is selected in catalog order. -/
def getScannersForRepo (config : Config) (repo : RepositoryConfig)
    (detected : DetectedLanguages) : List ScannerConfig :=
  if repo.Scanners.length > 0 then
    repo.Scanners.filterMap fun name =>
      match config.Scanners.find? (fun s => s.Name == name && s.Enabled) with
      | some s => if isScannerCompatible s detected then some s else none
      | none => none
  else
    config.Scanners.filter fun s => s.Enabled && isScannerCompatible s detected

/-- C3.  Divergence witness: a scanner restricted to go with elixir listed
as a conditional language, run against a repository whose only detected
language is elixir.  The repository test suite (TestIsScannerCompatible,
case conditional language match triggers run) and the specification both
require compatibility here, but isScannerCompatible never consults
LanguagesConditional and rejects the scanner. -/
theorem conditional_language_not_consulted :
    isScannerCompatible
      { Name := "mix-audit", Enabled := true, Languages := ["go"],
        LanguagesConditional := ["elixir"] }
      { Languages := ["elixir"] } = false := by
  decide

/-- C8.  A scanner whose Languages list is empty is compatible with every
detected language set, including the empty one, and when enabled and present
in the catalog it is selected for any repository that does not restrict the
scanner set. -/
theorem universal_scanner_always_selected (config : Config)
    (repo : RepositoryConfig) (detected : DetectedLanguages)
    (scanner : ScannerConfig) (hUniv : scanner.Languages = []) :
    isScannerCompatible scanner detected = true ∧
    (repo.Scanners = [] → scanner ∈ config.Scanners → scanner.Enabled = true →
      scanner ∈ getScannersForRepo config repo detected) := by
  have hCompat : isScannerCompatible scanner detected = true := by
    simp [isScannerCompatible, hUniv]
  refine ⟨hCompat, fun hRepo hMem hEn => ?_⟩
  unfold getScannersForRepo
  rw [if_neg (by simp [hRepo])]
  exact List.mem_filter.mpr ⟨hMem, by simp [hEn, hCompat]⟩

/-- Concrete instantiation of the C8 theorem: an enabled universal scanner
in a one-entry catalog is selected even though no language was detected. -/
theorem universal_scanner_always_selected_witness :
    isScannerCompatible { Name := "grype", Enabled := true }
      { Languages := [] } = true ∧
    ({ Name := "grype", Enabled := true } : ScannerConfig) ∈
      getScannersForRepo
        { Scanners := [{ Name := "grype", Enabled := true }] }
        { URL := "https://example.com/o/r" }
        { Languages := [] } := by
  have h := universal_scanner_always_selected
    { Scanners := [{ Name := "grype", Enabled := true }] }
    { URL := "https://example.com/o/r" }
    { Languages := [] }
    { Name := "grype", Enabled := true }
    rfl
  exact ⟨h.1, h.2 rfl (by simp) rfl⟩

/-! ## Repository spec validation (config.go) -/

/-- Whether a character is one of 0-9, a-f, A-F, the character class of the
commit hash pattern. -/
def isHexChar (c : Char) : Bool :=
  ('0' ≤ c && c ≤ '9') || ('a' ≤ c && c ≤ 'f') || ('A' ≤ c && c ≤ 'F')

/-- Models commitHashPattern.MatchString for the anchored pattern of 7 to 40
hexadecimal characters: the whole string consists of 7 to 40 hex characters.
Matching strings are ASCII, so byte length and character length agree. -/
def commitHashPatternMatch (s : String) : Bool :=
  7 ≤ s.data.length && s.data.length ≤ 40 && s.data.all isHexChar

/-- Models ValidateRepositoryConfig from config.go, with Go errors as the
error branch of Except carrying the message. -/
def ValidateRepositoryConfig (repo : RepositoryConfig) : Except String Unit :=
  if repo.URL == "" then .error "repository URL is required"
  else if repo.Branch == "" && repo.Version == "" && repo.Commit == "" then
    .error "at least one of branch, version, or commit must be specified"
  else if repo.Commit != "" && !commitHashPatternMatch repo.Commit then
    .error "invalid commit hash: must be 7-40 hexadecimal characters"
  else .ok ()

/-- C4.  For specs with a repository URL, validation succeeds exactly when
the commit field is empty or matches the 7-to-40-hex pattern, and at least
one of branch, version, or commit is present. -/
theorem validate_repository_config_iff (repo : RepositoryConfig)
    (hURL : repo.URL ≠ "") :
    ValidateRepositoryConfig repo = .ok () ↔
      ((repo.Commit = "" ∨ commitHashPatternMatch repo.Commit = true) ∧
       (repo.Branch ≠ "" ∨ repo.Version ≠ "" ∨ repo.Commit ≠ "")) := by
  unfold ValidateRepositoryConfig
  split_ifs with h1 h2 h3
  · exact absurd (by simpa using h1) hURL
  · simp only [Bool.and_eq_true, beq_iff_eq] at h2
    constructor
    · intro h; exact absurd h (by simp)
    · rintro ⟨-, hsel⟩
      rcases hsel with h | h | h
      · exact absurd h2.1.1 h
      · exact absurd h2.1.2 h
      · exact absurd h2.2 h
  · simp only [Bool.and_eq_true, bne_iff_ne, Bool.not_eq_true'] at h3
    constructor
    · intro h; exact absurd h (by simp)
    · rintro ⟨hcm, -⟩
      rcases hcm with h | h
      · exact absurd h h3.1
      · exact absurd (h.symm.trans h3.2) (by decide)
  · have hsel : repo.Branch ≠ "" ∨ repo.Version ≠ "" ∨ repo.Commit ≠ "" := by
      by_contra hall
      push_neg at hall
      exact h2 (by simp [hall.1, hall.2.1, hall.2.2])
    have hcm : repo.Commit = "" ∨ commitHashPatternMatch repo.Commit = true := by
      by_cases hc : repo.Commit = ""
      · exact Or.inl hc
      · cases hmb : commitHashPatternMatch repo.Commit with
        | true => exact Or.inr rfl
        | false => exact absurd (by simp [bne_iff_ne, hc, hmb]) h3
    exact ⟨fun _ => ⟨hcm, hsel⟩, fun _ => rfl⟩

/-- Concrete instantiation of the C4 theorem, both directions: a spec with
only a valid commit validates, and the iff rules out a spec with an invalid
commit shape. -/
theorem validate_repository_config_iff_witness :
    ValidateRepositoryConfig
      { URL := "https://example.com/o/r", Commit := "0123abc" } = .ok () ∧
    ValidateRepositoryConfig
      { URL := "https://example.com/o/r", Commit := "xyz" } ≠ .ok () := by
  constructor
  · exact (validate_repository_config_iff
      { URL := "https://example.com/o/r", Commit := "0123abc" }
      (by decide)).mpr ⟨Or.inr (by decide), Or.inr (Or.inr (by decide))⟩
  · intro h
    have hc := (validate_repository_config_iff
      { URL := "https://example.com/o/r", Commit := "xyz" } (by decide)).mp h
    rcases hc.1 with h1 | h1
    · exact absurd h1 (by decide)
    · exact absurd h1 (by decide)

/-! ## Checkout ref and display label (cloneRepository, main package) -/

/-- Models the ref and branchTag determination at the top of cloneRepository:
version wins over commit wins over branch, and an empty selector set falls
back to branch main.  The returned pair is (ref, branchTag); the git clone,
fetch and checkout invocations that consume the ref are external. -/
def resolveCheckoutRef (repo : RepositoryConfig) : String × String :=
  if repo.Version != "" then (repo.Version, repo.Version)
  else if repo.Commit != "" then (repo.Commit, repo.Commit)
  else if repo.Branch == "" then ("main", "main")
  else (repo.Branch, repo.Branch)

/-- C6.  Checkout ref and display label follow version over commit over
branch precedence, defaulting to branch main when all selectors are empty. -/
theorem checkout_ref_precedence (repo : RepositoryConfig) :
    (repo.Version ≠ "" → resolveCheckoutRef repo = (repo.Version, repo.Version)) ∧
    (repo.Version = "" → repo.Commit ≠ "" →
      resolveCheckoutRef repo = (repo.Commit, repo.Commit)) ∧
    (repo.Version = "" → repo.Commit = "" → repo.Branch ≠ "" →
      resolveCheckoutRef repo = (repo.Branch, repo.Branch)) ∧
    (repo.Version = "" → repo.Commit = "" → repo.Branch = "" →
      resolveCheckoutRef repo = ("main", "main")) := by
  refine ⟨fun hV => ?_, fun hV hC => ?_, fun hV hC hB => ?_, fun hV hC hB => ?_⟩ <;>
    simp [resolveCheckoutRef, *]

/-- Concrete instantiation of the C6 theorem: version wins even when commit
and branch are set, and the empty spec resolves to branch main. -/
theorem checkout_ref_precedence_witness :
    resolveCheckoutRef
      { URL := "u", Branch := "develop", Version := "v1.2.3",
        Commit := "0123abc" } = ("v1.2.3", "v1.2.3") ∧
    resolveCheckoutRef { URL := "u" } = ("main", "main") := by
  constructor
  · exact (checkout_ref_precedence
      { URL := "u", Branch := "develop", Version := "v1.2.3",
        Commit := "0123abc" }).1 (by decide)
  · exact (checkout_ref_precedence { URL := "u" }).2.2.2 rfl rfl rfl

/-! ## LanguageDetector percentages (the language detection file) -/

/-- Total weight across all languages, the total accumulation loop of
Percentages. -/
def countsTotal (counts : List (String × Int)) : Int :=
  counts.foldl (fun acc p => acc + p.2) 0

/-- Models the Percentages method of DetectedLanguages.  The nil receiver is
modelled as none; float64 division is modelled exactly over the rationals.
Nothing is returned when the receiver is nil, the weight map is empty, or
the total weight is zero; otherwise every language maps to
weight * 100 / total. -/
def Percentages (d : Option DetectedLanguages) : Option (List (String × ℚ)) :=
  match d with
  | none => none
  | some dl =>
    if dl.FileCounts.length == 0 then none
    else
      let total := countsTotal dl.FileCounts
      if total == 0 then none
      else some (dl.FileCounts.map fun p => (p.1, (p.2 : ℚ) * 100 / (total : ℚ)))

/-- C9.  Percentages yields nothing exactly on a nil receiver, an empty
weight map, or a zero total weight; otherwise it contains, for every entry
of the weight map, the share weight * 100 / total, whatever metric the
weights measure. -/
theorem percentages_spec (d : Option DetectedLanguages) :
    ((d = none ∨ (∃ dl, d = some dl ∧
        (dl.FileCounts = [] ∨ countsTotal dl.FileCounts = 0))) →
      Percentages d = none) ∧
    (∀ dl, d = some dl → countsTotal dl.FileCounts ≠ 0 → dl.FileCounts ≠ [] →
      ∀ p ∈ dl.FileCounts,
        (p.1, (p.2 : ℚ) * 100 / (countsTotal dl.FileCounts : ℚ)) ∈
          (Percentages d).getD []) := by
  constructor
  · rintro (h | ⟨dl, rfl, h | h⟩)
    · simp [h, Percentages]
    · simp [Percentages, h]
    · by_cases he : dl.FileCounts = []
      · simp [Percentages, he]
      · have hb : (dl.FileCounts.length == 0) = false := by simpa using he
        simp [Percentages, hb, h]
  · rintro dl rfl htot hne p hp
    simp only [Percentages]
    rw [if_neg (by simpa using hne)]
    rw [if_neg (by simpa using htot)]
    simp only [Option.getD_some]
    exact List.mem_map.mpr ⟨p, hp, rfl⟩

/-- Concrete instantiation of the C9 theorem: a two-language weight map
yields the exact shares, and a zero-total map yields nothing. -/
theorem percentages_spec_witness :
    ("go", (75 : ℚ)) ∈
      (Percentages (some ⟨["go", "python"], [("go", 30), ("python", 10)], ""⟩)).getD [] ∧
    Percentages (some ⟨[], [("go", 0)], ""⟩) = none := by
  constructor
  · have h := (percentages_spec
      (some ⟨["go", "python"], [("go", 30), ("python", 10)], ""⟩)).2
      ⟨["go", "python"], [("go", 30), ("python", 10)], ""⟩
      rfl (by decide) (by decide) ("go", 30) (by decide)
    have heq : ((30 : Int) : ℚ) * 100 /
        ((countsTotal [("go", 30), ("python", 10)] : Int) : ℚ) = (75 : ℚ) := by
      norm_num [countsTotal]
    rwa [heq] at h
  · exact (percentages_spec (some ⟨[], [("go", 0)], ""⟩)).1
      (Or.inr ⟨_, rfl, Or.inr (by decide)⟩)

/-! ## SBOMCache (sbom.go) -/

/-- One entry of a directory listing, the projection of os.DirEntry that
findExistingSBOM consumes. -/
structure DirEntry where
  name : String
  isDir : Bool
deriving Repr, DecidableEq

/-- Matches one or more digits followed by a dot and one or more digits at
the front of the character list, the mandatory part of the version tag
pattern after the optional leading v. -/
def digitsDotDigits (cs : List Char) : Bool :=
  let ds := cs.takeWhile Char.isDigit
  !ds.isEmpty &&
    (match cs.drop ds.length with
     | '.' :: c :: _ => c.isDigit
     | _ => false)

/-- Models isVersionTag from sbom.go: versionTagPattern.MatchString with the
start-anchored pattern of an optional v, digits, a dot, and digits. -/
def isVersionTag (branchTag : String) : Bool :=
  match branchTag.data with
  | 'v' :: rest => digitsDotDigits rest
  | cs => digitsDotDigits cs

/-- Models buildSBOMFilename from sbom.go.  The date parameter carries what
time.Now().Format would produce at generation time. -/
def buildSBOMFilename (repoName commitHash branchTag date : String) : String :=
  if isVersionTag branchTag then
    repoName ++ "_" ++ branchTag ++ "_" ++ commitHash ++ "_" ++ date ++ ".cdx.json"
  else
    repoName ++ "_" ++ commitHash ++ "_" ++ date ++ ".cdx.json"

/-- The key-derived filename stem that findExistingSBOM matches against:
everything before the date. -/
def sbomKeyStem (repoName commitHash branchTag : String) : String :=
  if isVersionTag branchTag then
    repoName ++ "_" ++ branchTag ++ "_" ++ commitHash ++ "_"
  else
    repoName ++ "_" ++ commitHash ++ "_"

/-- Models findExistingSBOM from sbom.go.  The entries parameter carries the
os.ReadDir result, none for a read error, in which case the empty string is
returned as in the source; otherwise the first non-directory entry whose
name extends the key-derived stem and carries the artifact extension is
returned as a full path. -/
def findExistingSBOM (sbomDir : String) (entries : Option (List DirEntry))
    (repoName commitHash branchTag : String) : String :=
  match entries with
  | none => ""
  | some es =>
    let stem := sbomKeyStem repoName commitHash branchTag
    match es.find? (fun e =>
        !e.isDir && goStartsWith e.name stem && goEndsWith e.name ".cdx.json") with
    | some e => joinPath sbomDir e.name
    | none => ""

/-- The caching decision of generateSBOM: reuse an existing artifact or
generate a fresh one under a date-suffixed name. -/
inductive SBOMPlan where
  | reuse (path : String)
  | generate (path : String)
deriving Repr, DecidableEq

/-- Models the cache-check head of generateSBOM from sbom.go: when
findExistingSBOM locates an artifact it is reused, otherwise a fresh
artifact is generated under the filename built for the current date.  The
syft invocation itself is external. -/
def generateSBOMPlan (sbomDir : String) (entries : Option (List DirEntry))
    (repoName commitHash branchTag date : String) : SBOMPlan :=
  let existing := findExistingSBOM sbomDir entries repoName commitHash branchTag
  if existing != "" then .reuse existing
  else .generate (joinPath sbomDir (buildSBOMFilename repoName commitHash branchTag date))

/-- Helper: an SBOM filename is the key-derived stem followed by the date and
the artifact extension, whatever the date. -/
theorem buildSBOMFilename_eq_stem (r c b d : String) :
    buildSBOMFilename r c b d = sbomKeyStem r c b ++ (d ++ ".cdx.json") := by
  unfold buildSBOMFilename sbomKeyStem
  split <;> simp [String.append_assoc]

/-- Helper: a string starts with its own front part. -/
theorem goStartsWith_append (a b : String) : goStartsWith (a ++ b) a = true := by
  unfold goStartsWith
  rw [String.data_append,  List.isPrefixOf_iff_prefix]
  exact List.prefix_append _ _

/-- Helper: a string ends with its own back part. -/
theorem goEndsWith_append (a b : String) : goEndsWith (a ++ b) b = true := by
  unfold goEndsWith
  rw [String.data_append, List.isSuffixOf_iff_suffix]
  exact List.suffix_append _ _

/-- Helper: a joined path is never the empty string. -/
theorem joinPath_ne_empty (a b : String) : joinPath a b ≠ "" := by
  intro h
  have := congrArg String.data h
  simp [joinPath, String.data_append] at this

/-- C5.  The SBOM cache lookup ignores the date component: whenever the
directory holds a non-directory artifact built from the same repository
name, label, and commit hash under any date, findExistingSBOM returns the
path of an artifact matching the key-derived stem, and the generation plan
for any other date reuses it instead of generating. -/
theorem sbom_cache_ignores_date (sbomDir : String) (es : List DirEntry)
    (repoName commitHash branchTag dOld dNew : String) (e : DirEntry)
    (hMem : e ∈ es)
    (hName : e.name = buildSBOMFilename repoName commitHash branchTag dOld)
    (hFile : e.isDir = false) :
    ∃ nm : String,
      DirEntry.mk nm false ∈ es ∧
      goStartsWith nm (sbomKeyStem repoName commitHash branchTag) = true ∧
      goEndsWith nm ".cdx.json" = true ∧
      findExistingSBOM sbomDir (some es) repoName commitHash branchTag =
        joinPath sbomDir nm ∧
      generateSBOMPlan sbomDir (some es) repoName commitHash branchTag dNew =
        .reuse (joinPath sbomDir nm) := by
  have hpe : (!e.isDir && goStartsWith e.name (sbomKeyStem repoName commitHash branchTag)
      && goEndsWith e.name ".cdx.json") = true := by
    rw [hFile, hName, buildSBOMFilename_eq_stem]
    have h1 := goStartsWith_append (sbomKeyStem repoName commitHash branchTag)
      (dOld ++ ".cdx.json")
    have h2 : goEndsWith (sbomKeyStem repoName commitHash branchTag ++
        (dOld ++ ".cdx.json")) ".cdx.json" = true := by
      rw [← String.append_assoc]
      exact goEndsWith_append _ _
    simp [h1, h2]
  have hsome : (es.find? (fun e =>
      !e.isDir && goStartsWith e.name (sbomKeyStem repoName commitHash branchTag)
      && goEndsWith e.name ".cdx.json")).isSome :=
    List.find?_isSome.mpr ⟨e, hMem, hpe⟩
  obtain ⟨f, hf⟩ := Option.isSome_iff_exists.mp hsome
  have hpf := List.find?_some hf
  have hfmem := List.mem_of_find?_eq_some hf
  simp only [Bool.and_eq_true, Bool.not_eq_true'] at hpf
  refine ⟨f.name, ?_, hpf.1.2, hpf.2, ?_, ?_⟩
  · have : f = DirEntry.mk f.name false := by
      cases f with
      | mk n d => simp at hpf ⊢; exact hpf.1.1
    rwa [this] at hfmem
  · simp [findExistingSBOM, hf]
  · have hfind : findExistingSBOM sbomDir (some es) repoName commitHash branchTag =
        joinPath sbomDir f.name := by
      simp [findExistingSBOM, hf]
    have hne : (findExistingSBOM sbomDir (some es) repoName commitHash branchTag
        != "") = true := by
      rw [hfind]
      simpa using joinPath_ne_empty sbomDir f.name
    simp [generateSBOMPlan, hne, hfind]
    exact joinPath_ne_empty sbomDir f.name

/-- Concrete instantiation of the C5 theorem: an artifact generated on one
date is found and reused on a later date. -/
theorem sbom_cache_ignores_date_witness :
    findExistingSBOM "/r/sboms"
      (some [DirEntry.mk "allscan_v1.2.3_0123abc_2025-01-01.cdx.json" false])
      "allscan" "0123abc" "v1.2.3" =
      "/r/sboms/allscan_v1.2.3_0123abc_2025-01-01.cdx.json" ∧
    generateSBOMPlan "/r/sboms"
      (some [DirEntry.mk "allscan_v1.2.3_0123abc_2025-01-01.cdx.json" false])
      "allscan" "0123abc" "v1.2.3" "2025-02-02" =
      .reuse "/r/sboms/allscan_v1.2.3_0123abc_2025-01-01.cdx.json" := by
  have h := sbom_cache_ignores_date "/r/sboms"
    [DirEntry.mk "allscan_v1.2.3_0123abc_2025-01-01.cdx.json" false]
    "allscan" "0123abc" "v1.2.3" "2025-01-01" "2025-02-02"
    (DirEntry.mk "allscan_v1.2.3_0123abc_2025-01-01.cdx.json" false)
    (by simp) (by decide) rfl
  obtain ⟨nm, hmem, -, -, hfind, hplan⟩ := h
  have hnm : nm = "allscan_v1.2.3_0123abc_2025-01-01.cdx.json" := by
    simpa using hmem
  rw [hnm] at hfind hplan
  exact ⟨hfind, hplan⟩

/-! ## RefResolver (resolveFromLsRemote, main package) -/

/-- The dereference marker that git ls-remote appends to annotated tag
lines. -/
def derefSuffixStr : String := "^\x7b\x7d"

/-- Parses one ls-remote output line into its hash and ref fields, the
Fields split with the two-field guard of the line loop. -/
def parseLsLine (line : String) : Option (String × String) :=
  match goFields line with
  | [h, r] => some (h, r)
  | _ => none

/-- Models the line preprocessing of resolveFromLsRemote: TrimSpace, split
on newlines, and keep exactly the two-field lines.  Empty lines produce no
fields and are dropped, as by the explicit empty-line guard in the loop. -/
def parseLsPairs (output : String) : List (String × String) :=
  (goSplitLines (goTrimSpace output)).filterMap parseLsLine

/-- One iteration of the scanning loop of resolveFromLsRemote over a
(hash, ref) pair: a dereference line records its tag name and commit hash
at the front of the map (shadowing earlier entries, as a Go map write
does); otherwise the first refs/tags line fixes the selected tag. -/
def lsScanStep (acc : Option (String × String) × List (String × String))
    (pr : String × String) : Option (String × String) × List (String × String) :=
  match goCutSuffix pr.2 derefSuffixStr with
  | some base => (acc.1, (goTrimStart base "refs/tags/", pr.1) :: acc.2)
  | none =>
    if goStartsWith pr.2 "refs/tags/" then
      match acc.1 with
      | none => (some (goTrimStart pr.2 "refs/tags/", pr.1), acc.2)
      | some s => (some s, acc.2)
    else acc

/-- The tag name recorded by a dereference line, nothing for a
non-dereference ref: the CutSuffix and TrimPrefix composition of the
dereference branch. -/
def derefNameOf (ref : String) : Option String :=
  (goCutSuffix ref derefSuffixStr).map (fun base => goTrimStart base "refs/tags/")

/-- The selection and resolution tail of resolveFromLsRemote: no selected
tag falls back to branch main; otherwise the dereferenced commit hash is
preferred over the tag object hash and truncated to the short form. -/
def resolveParsed (url : String) (pairs : List (String × String)) :
    RepositoryConfig :=
  let scan := pairs.foldl lsScanStep (none, [])
  match scan.1 with
  | none => { URL := url, Branch := "main" }
  | some nh =>
    let commitHash :=
      match scan.2.lookup nh.1 with
      | some d => d
      | none => nh.2
    { URL := url, Version := nh.1, Commit := goShortHash commitHash }

/-- Models resolveFromLsRemote from the main package: parse the ls-remote
tag listing and resolve the latest tag to a repository config. -/
def resolveFromLsRemote (url output : String) : RepositoryConfig :=
  resolveParsed url (parseLsPairs output)
/-- Helper: dropping a front part recovers the back part. -/
theorem goTrimStart_append (a b : String) : goTrimStart (a ++ b) a = b := by
  unfold goTrimStart
  rw [String.data_append]
  rw [if_pos (by rw [ List.isPrefixOf_iff_prefix]; exact List.prefix_append _ _)]
  rw [List.drop_left]

/-- Helper: a string that does not end with p has no p cut off. -/
theorem goCutSuffix_eq_none (s p : String) (h : goEndsWith s p = false) :
    goCutSuffix s p = none := by
  unfold goCutSuffix
  unfold goEndsWith at h
  simp [h]

/-- Helper: once a tag has been selected, the scanning loop never replaces
it. -/
theorem lsScan_sel_stays (ps : List (String × String)) (s : String × String)
    (m : List (String × String)) :
    (ps.foldl lsScanStep (some s, m)).1 = some s := by
  induction ps generalizing m with
  | nil => rfl
  | cons p ps ih =>
    rw [List.foldl_cons]
    cases hc : goCutSuffix p.2 derefSuffixStr with
    | some base =>
      simp only [lsScanStep, hc]
      exact ih _
    | none =>
      simp only [lsScanStep, hc]
      by_cases hs : goStartsWith p.2 "refs/tags/" = true
      · simp only [hs, if_true]
        exact ih _
      · simp only [Bool.not_eq_true] at hs
        simp only [hs, Bool.false_eq_true, if_false]
        exact ih _

/-- Helper: the first non-dereference refs/tags line fixes the selected tag
name and tag object hash. -/
theorem lsScan_sel_first (pre post : List (String × String))
    (tagHash name : String) (m : List (String × String))
    (hPre : ∀ pr ∈ pre, goCutSuffix pr.2 derefSuffixStr ≠ none ∨
      goStartsWith pr.2 "refs/tags/" = false)
    (hND : goCutSuffix ("refs/tags/" ++ name) derefSuffixStr = none) :
    ((pre ++ (tagHash, "refs/tags/" ++ name) :: post).foldl lsScanStep
      (none, m)).1 = some (name, tagHash) := by
  induction pre generalizing m with
  | nil =>
    rw [List.nil_append, List.foldl_cons]
    simp only [lsScanStep, hND]
    rw [if_pos (goStartsWith_append "refs/tags/" name)]
    rw [goTrimStart_append]
    exact lsScan_sel_stays post (name, tagHash) m
  | cons p pre ih =>
    rw [List.cons_append, List.foldl_cons]
    have hp := hPre p (List.mem_cons_self _ _)
    cases hc : goCutSuffix p.2 derefSuffixStr with
    | some base =>
      simp only [lsScanStep, hc]
      exact ih _ (fun q hq => hPre q (List.mem_cons_of_mem _ hq))
    | none =>
      have hs : goStartsWith p.2 "refs/tags/" = false := by
        rcases hp with h | h
        · exact absurd hc h
        · exact h
      simp only [lsScanStep, hc, hs, Bool.false_eq_true, if_false]
      exact ih _ (fun q hq => hPre q (List.mem_cons_of_mem _ hq))

/-- Helper: when no line in the remainder dereferences the tag, the map
lookup for it is unchanged by the scanning loop. -/
theorem lsScan_lookup_of_no_deref (ps : List (String × String)) (name : String)
    (sel : Option (String × String)) (m : List (String × String))
    (hNo : ∀ pr ∈ ps, derefNameOf pr.2 ≠ some name) :
    ((ps.foldl lsScanStep (sel, m)).2.lookup name) = m.lookup name := by
  induction ps generalizing sel m with
  | nil => rfl
  | cons p ps ih =>
    rw [List.foldl_cons]
    have hp := hNo p (List.mem_cons_self _ _)
    have hrest := fun q hq => hNo q (List.mem_cons_of_mem _ hq)
    cases hc : goCutSuffix p.2 derefSuffixStr with
    | some base =>
      have hk : goTrimStart base "refs/tags/" ≠ name := by
        intro hkey
        exact hp (by simp [derefNameOf, hc, hkey])
      simp only [lsScanStep, hc]
      rw [ih _ _ hrest]
      simp [List.lookup, beq_eq_false_iff_ne.mpr (Ne.symm hk)]
    | none =>
      simp only [lsScanStep, hc]
      by_cases hs : goStartsWith p.2 "refs/tags/" = true
      · simp only [hs, if_true]
        cases sel with
        | none => exact ih _ _ hrest
        | some s => exact ih _ _ hrest
      · simp only [Bool.not_eq_true] at hs
        simp only [hs, Bool.false_eq_true, if_false]
        exact ih _ _ hrest

/-- Helper: when every dereference line for the tag carries the same commit
hash and at least one exists (or the map already records it), the final map
lookup yields that hash. -/
theorem lsScan_lookup_of_deref (ps : List (String × String)) (name dHash : String)
    (sel : Option (String × String)) (m : List (String × String))
    (hAll : ∀ pr ∈ ps, derefNameOf pr.2 = some name → pr.1 = dHash)
    (hEx : (∃ pr ∈ ps, derefNameOf pr.2 = some name) ∨
      m.lookup name = some dHash) :
    ((ps.foldl lsScanStep (sel, m)).2.lookup name) = some dHash := by
  induction ps generalizing sel m with
  | nil =>
    rcases hEx with ⟨pr, hmem, _⟩ | hm
    · exact absurd hmem (List.not_mem_nil pr)
    · exact hm
  | cons p ps ih =>
    rw [List.foldl_cons]
    have hAllRest := fun q hq => hAll q (List.mem_cons_of_mem _ hq)
    cases hc : goCutSuffix p.2 derefSuffixStr with
    | some base =>
      simp only [lsScanStep, hc]
      by_cases hk : goTrimStart base "refs/tags/" = name
      · have hd : derefNameOf p.2 = some name := by simp [derefNameOf, hc, hk]
        have hph := hAll p (List.mem_cons_self _ _) hd
        refine ih _ _ hAllRest (Or.inr ?_)
        simp [List.lookup, hk, hph]
      · refine ih _ _ hAllRest ?_
        rcases hEx with ⟨pr, hmem, hd⟩ | hm
        · rcases List.mem_cons.mp hmem with rfl | hmem2
          · exact absurd (by simpa [derefNameOf, hc] using hd) hk
          · exact Or.inl ⟨pr, hmem2, hd⟩
        · refine Or.inr ?_
          rw [← hm]
          simp [List.lookup, beq_eq_false_iff_ne.mpr (Ne.symm hk)]
    | none =>
      have hEx2 : (∃ pr ∈ ps, derefNameOf pr.2 = some name) ∨
          m.lookup name = some dHash := by
        rcases hEx with ⟨pr, hmem, hd⟩ | hm
        · rcases List.mem_cons.mp hmem with rfl | hmem2
          · exact absurd hd (by simp [derefNameOf, hc])
          · exact Or.inl ⟨pr, hmem2, hd⟩
        · exact Or.inr hm
      simp only [lsScanStep, hc]
      by_cases hs : goStartsWith p.2 "refs/tags/" = true
      · simp only [hs, if_true]
        cases sel with
        | none => exact ih _ _ hAllRest hEx2
        | some s => exact ih _ _ hAllRest hEx2
      · simp only [Bool.not_eq_true] at hs
        simp only [hs, Bool.false_eq_true, if_false]
        exact ih _ _ hAllRest hEx2

/-- Helper: without any refs/tags line no tag is ever selected. -/
theorem lsScan_sel_none (ps : List (String × String)) (m : List (String × String))
    (hNo : ∀ pr ∈ ps, goStartsWith pr.2 "refs/tags/" = false) :
    ((ps.foldl lsScanStep (none, m)).1) = none := by
  induction ps generalizing m with
  | nil => rfl
  | cons p ps ih =>
    rw [List.foldl_cons]
    have hp := hNo p (List.mem_cons_self _ _)
    have hrest := fun q hq => hNo q (List.mem_cons_of_mem _ hq)
    cases hc : goCutSuffix p.2 derefSuffixStr with
    | some base =>
      simp only [lsScanStep, hc]
      exact ih _ hrest
    | none =>
      simp only [lsScanStep, hc, hp, Bool.false_eq_true, if_false]
      exact ih _ hrest

/-- C7.  A tag listing without any refs/tags line resolves to branch main
with empty version and commit fields. -/
theorem resolve_no_tags_falls_back_to_main (url output : String)
    (hNo : ∀ pr ∈ parseLsPairs output, goStartsWith pr.2 "refs/tags/" = false) :
    resolveFromLsRemote url output =
      { URL := url, Branch := "main", Version := "", Commit := "",
        Scanners := [] } := by
  have h1 : ((parseLsPairs output).foldl lsScanStep (none, [])).1 = none :=
    lsScan_sel_none _ _ hNo
  simp only [resolveFromLsRemote, resolveParsed, h1]

/-- Concrete instantiation of the C7 theorem: a listing holding only a
branch ref resolves to branch main. -/
theorem resolve_no_tags_falls_back_to_main_witness :
    resolveFromLsRemote "u" "abc123 refs/heads/main" =
      { URL := "u", Branch := "main", Version := "", Commit := "",
        Scanners := [] } :=
  resolve_no_tags_falls_back_to_main "u" "abc123 refs/heads/main" (by decide)

/-- C2.  The first non-dereference refs/tags line of a tag listing is
selected as the latest tag; its commit resolves through the dereference
line for that tag name when one appears anywhere in the input, and through
the tag object hash itself otherwise, truncated to the 7-character short
form. -/
theorem resolve_latest_tag_hash (url output : String)
    (pre post : List (String × String)) (tagHash name : String)
    (hSplit : parseLsPairs output =
      pre ++ (tagHash, "refs/tags/" ++ name) :: post)
    (hPre : ∀ pr ∈ pre, goCutSuffix pr.2 derefSuffixStr ≠ none ∨
      goStartsWith pr.2 "refs/tags/" = false)
    (hND : goEndsWith ("refs/tags/" ++ name) derefSuffixStr = false) :
    ((∀ pr ∈ parseLsPairs output, derefNameOf pr.2 ≠ some name) →
      resolveFromLsRemote url output =
        { URL := url, Version := name, Commit := goShortHash tagHash }) ∧
    (∀ dHash : String,
      (∀ pr ∈ parseLsPairs output, derefNameOf pr.2 = some name → pr.1 = dHash) →
      (∃ pr ∈ parseLsPairs output, derefNameOf pr.2 = some name) →
      resolveFromLsRemote url output =
        { URL := url, Version := name, Commit := goShortHash dHash }) := by
  have hND2 : goCutSuffix ("refs/tags/" ++ name) derefSuffixStr = none :=
    goCutSuffix_eq_none _ _ hND
  have hsel : ((parseLsPairs output).foldl lsScanStep (none, [])).1 =
      some (name, tagHash) := by
    rw [hSplit]
    exact lsScan_sel_first pre post tagHash name [] hPre hND2
  constructor
  · intro hNo
    have hlk : ((parseLsPairs output).foldl lsScanStep (none, [])).2.lookup name =
        none := by
      rw [lsScan_lookup_of_no_deref _ _ _ _ hNo]
      rfl
    simp only [resolveFromLsRemote, resolveParsed, hsel, hlk]
  · intro dHash hAll hEx
    have hlk : ((parseLsPairs output).foldl lsScanStep (none, [])).2.lookup name =
        some dHash :=
      lsScan_lookup_of_deref _ _ _ _ _ hAll (Or.inl hEx)
    simp only [resolveFromLsRemote, resolveParsed, hsel, hlk]

/-- Concrete instantiation of the C2 theorem, annotated and lightweight: the
newest tag is annotated in the first listing, so its dereferenced commit
wins over the tag object hash; the second listing has only lightweight
tags, so the tag hash itself is used, truncated to 7 characters. -/
theorem resolve_latest_tag_hash_witness :
    resolveFromLsRemote "u"
      "aaaaaaaaaaaa refs/tags/v2.0\nbbbbbbbbbbbb refs/tags/v2.0^\x7b\x7d\ncccccccccccc refs/tags/v1.0" =
      { URL := "u", Version := "v2.0", Commit := "bbbbbbb" } ∧
    resolveFromLsRemote "u"
      "dddddddddddd refs/tags/v2.0\ncccccccccccc refs/tags/v1.0" =
      { URL := "u", Version := "v2.0", Commit := "ddddddd" } := by
  constructor
  · have h := (resolve_latest_tag_hash "u"
      "aaaaaaaaaaaa refs/tags/v2.0\nbbbbbbbbbbbb refs/tags/v2.0^\x7b\x7d\ncccccccccccc refs/tags/v1.0"
      [] [("bbbbbbbbbbbb", "refs/tags/v2.0^\x7b\x7d"), ("cccccccccccc", "refs/tags/v1.0")]
      "aaaaaaaaaaaa" "v2.0" (by decide) (by decide) (by decide)).2
      "bbbbbbbbbbbb" (by decide) (by decide)
    have hs : goShortHash "bbbbbbbbbbbb" = "bbbbbbb" := by decide
    rwa [hs] at h
  · have h := (resolve_latest_tag_hash "u"
      "dddddddddddd refs/tags/v2.0\ncccccccccccc refs/tags/v1.0"
      [] [("cccccccccccc", "refs/tags/v1.0")]
      "dddddddddddd" "v2.0" (by decide) (by decide) (by decide)).1
      (by decide)
    have hs : goShortHash "dddddddddddd" = "ddddddd" := by decide
    rwa [hs] at h
